import Mathlib

/-!
Shallow embedding of the ingest-and-persist pipeline of the
solana-accountsdb-plugin-bigtable repository, restricted to the parts the
verified claims are about:

* the account data model (`DbAccountInfo` from
  src/parallel_bigtable_client/account.rs),
* the fork-aware history batcher (`SlotGraph`, `AccountsHistoryBatcher` from
  src/parallel_bigtable_client/accounts_history.rs),
* the differential batch encoder (`as_account_batch_item`,
  `update_accounts_batch` from the same file),
* the per-worker buffered account client (`update_account` from
  src/parallel_bigtable_client/account.rs),
* the worker receive-timeout branch and end-of-startup coordination
  (`BigtableClientWorker::do_work`, `notify_end_of_startup` from
  src/parallel_bigtable_client.rs).

Machine integers (u64) are modelled as `Nat`; wrapping subtraction is made
explicit with `% 2^64` where the source can underflow.  `Duration` values are
modelled as nanosecond counts.  Fallible extraction (a Rust `unwrap` on a
possibly-empty vector) is modelled with `Option`.

The source calls `Vec::sort_unstable_by`, whose result on elements with fully
equal keys is not specified by its contract (it is whatever permutation the
standard library produces).  The sort is therefore embedded
nondeterministically: flush-related theorems quantify over every list
`sorted` admissible for the pending updates, where admissible means a
permutation of the pending updates that is weakly sorted by the comparison
key the source passes to the sort (`order_key`: slot, pubkey, write_version).
-/

namespace BigtableGeyser

/-- One u64 word: values are naturals below this bound. -/
def U64 : Nat := 2 ^ 64

/-- Embedding of `DbAccountInfo` (account.rs).  Byte vectors are lists of
naturals (each below 256); `updated_since_epoch` is a `Duration` modelled as
nanoseconds since the unix epoch. -/
structure DbAccountInfo where
  pubkey : List Nat
  lamports : Nat
  owner : List Nat
  executable : Bool
  rent_epoch : Nat
  data : List Nat
  slot : Nat
  write_version : Nat
  updated_since_epoch : Nat
  deriving DecidableEq, Repr

/-- Embedding of the protobuf message `accounts::Account` that
`update_accounts_batch` fills (prost message; unset fields take the protobuf
defaults: empty bytes, zero, false).  `updated_on` is the millisecond
timestamp stored in the `UnixTimestamp` submessage. -/
structure ProtoAccount where
  pubkey : List Nat := []
  owner : List Nat := []
  lamports : Nat := 0
  slot : Nat := 0
  executable : Bool := false
  rent_epoch : Nat := 0
  data : List Nat := []
  write_version : Nat := 0
  updated_on : Nat := 0
  deriving DecidableEq, Repr

/-- Embedding of `accounts::Account::from(&DbAccountInfo)` (account.rs):
every field is copied in full.  In the source `updated_on` is taken from the
ambient clock (`SystemTime::now().elapsed()`, which is approximately zero);
it is modelled as zero. -/
def protoOfDb (a : DbAccountInfo) : ProtoAccount :=
  { pubkey := a.pubkey
    owner := a.owner
    lamports := a.lamports
    slot := a.slot
    executable := a.executable
    rent_epoch := a.rent_epoch
    data := a.data
    write_version := a.write_version
    updated_on := 0 }

/-- Embedding of `as_account_batch_item` (accounts_history.rs lines 107-120).
The source computes, with u64 subtraction,
`rent_epoch: prev.rent_epoch - next.rent_epoch`,
`slot: next.slot - prev.slot`,
`write_version: next.write_version - prev.write_version`,
and stores `next.updated_since_epoch - prev.updated_since_epoch` in
milliseconds.  u64 subtraction is wrapping in release builds (and a panic in
debug builds when it underflows); it is embedded as addition of `2^64` and
reduction mod `2^64`.  `Duration` subtraction truncates at zero here
(in the source it panics on underflow); division by `10^6` converts the
nanosecond model to the `as_millis` value. -/
def as_account_batch_item (prev next : DbAccountInfo) : ProtoAccount :=
  { data := next.data
    lamports := next.lamports
    rent_epoch := (prev.rent_epoch + U64 - next.rent_epoch) % U64
    slot := (next.slot + U64 - prev.slot) % U64
    write_version := (next.write_version + U64 - prev.write_version) % U64
    updated_on := (next.updated_since_epoch - prev.updated_since_epoch) / 1000000 }

/-! ### Row-key construction

`update_account` keys rows by `Pubkey::new(pubkey).to_string()`, which is the
base58 (Bitcoin alphabet) rendering of the 32 pubkey bytes, and
`update_accounts_batch` keys its single row by
`format of pubkey, then the 016X renderings of the complemented slot and
write_version, separated by slashes`. -/

/-- The bs58 Bitcoin alphabet used by `Pubkey::to_string`. -/
def b58Alphabet : List Char :=
  "123456789ABCDEFGHJKLMNPQRSTUVWXYZabcdefghijkmnopqrstuvwxyz".toList

/-- Base-58 digits of `n`, least significant first; empty for zero. -/
def b58Digits (n : Nat) : List Char :=
  if h : n = 0 then []
  else b58Alphabet.getD (n % 58) '1' :: b58Digits (n / 58)
  termination_by n
  decreasing_by exact Nat.div_lt_self (Nat.pos_of_ne_zero h) (by omega)

/-- Big-endian value of a byte string. -/
def bytesToNat (bs : List Nat) : Nat :=
  bs.foldl (fun acc b => acc * 256 + b) 0

/-- Base58 encoding of a byte string (the `bs58` crate encoding behind
`Pubkey::to_string`): one `1` per leading zero byte, then the base-58 digits
of the big-endian value, most significant first. -/
def base58Encode (bs : List Nat) : List Char :=
  List.replicate (bs.takeWhile (fun b => decide (b = 0))).length '1'
    ++ (b58Digits (bytesToNat bs)).reverse

/-- Uppercase hexadecimal digit characters, as produced by the Rust `X`
format: `0`-`9` then `A`-`F`. -/
def hexDigit (d : Nat) : Char :=
  if d < 10 then Char.ofNat (48 + d) else Char.ofNat (55 + d)

/-- Exactly `k` big-endian hexadecimal digits of `n` (leading zeros kept).
For `n < 16 ^ k` this is the Rust zero-padded format of width `k`; the
`016X` format on a u64 value is `hexBE 16`. -/
def hexBE : Nat → Nat → List Char
  | 0, _ => []
  | k + 1, n => hexBE k (n / 16) ++ [hexDigit (n % 16)]

/-- Bitwise complement of a u64 value (the Rust `!x` on `u64`). -/
def comp64 (n : Nat) : Nat := U64 - 1 - n

/-- Characters of the row key `update_accounts_batch` builds for the first
element of a batch: base58 pubkey, `/`, 016X of the complemented slot, `/`,
016X of the complemented write_version. -/
def historyRowKeyChars (a : DbAccountInfo) : List Char :=
  base58Encode a.pubkey ++ '/' :: hexBE 16 (comp64 a.slot)
    ++ '/' :: hexBE 16 (comp64 a.write_version)

/-- The row key as a string. -/
def historyRowKey (a : DbAccountInfo) : String :=
  ⟨historyRowKeyChars a⟩

/-- The tail of the protobuf batch built by `update_accounts_batch`: each
element is the differential of `next` against the running `prev`. -/
def diffItems : DbAccountInfo → List DbAccountInfo → List ProtoAccount
  | _, [] => []
  | prev, next :: rest => as_account_batch_item prev next :: diffItems next rest

/-- Embedding of the pure core of `update_accounts_batch`
(accounts_history.rs lines 123-142): the single `(row key, protobuf batch)`
cell written to the `account_history` table.  The source unwraps
`accounts.first()`, which panics on an empty batch; that partiality is made
explicit with `Option`. -/
def update_accounts_batch (accounts : List DbAccountInfo) :
    Option (String × List ProtoAccount) :=
  match accounts with
  | [] => none
  | prev :: rest => some (historyRowKey prev, protoOfDb prev :: diffItems prev rest)

/-! ### The slot graph

`SlotGraph` wraps a `BTreeMap<u64, u64>` from slot to parent slot.  The map
is embedded as an association list with strictly increasing keys
(`GraphWF`), which is the BTreeMap representation invariant; `split_off` and
`insert` are embedded against that representation. -/

/-- A slot-to-parent map: association list, sorted strictly by key when
well formed. -/
abbrev SlotGraph := List (Nat × Nat)

/-- The BTreeMap representation invariant: keys strictly increase. -/
def GraphWF (g : SlotGraph) : Prop :=
  g.Pairwise (fun a b => a.1 < b.1)

instance (g : SlotGraph) : Decidable (GraphWF g) := by
  unfold GraphWF; infer_instance

/-- Embedding of `BTreeMap::insert` on the sorted association list: returns
the updated map and the previous value bound to the key, if any. -/
def mapInsert : SlotGraph → Nat → Nat → SlotGraph × Option Nat
  | [], s, p => ([(s, p)], none)
  | (k, v) :: rest, s, p =>
    if s < k then ((s, p) :: (k, v) :: rest, none)
    else if s = k then ((s, p) :: rest, some v)
    else
      let r := mapInsert rest s p
      ((k, v) :: r.1, r.2)

/-- Embedding of `SlotGraph::update_parent` (accounts_history.rs lines
17-22): insert the edge, then `debug_assert_eq` the previous value (when one
existed) against the new parent.  The returned `Bool` is the outcome of that
debug assertion: `false` means a debug build panics at this call (release
builds compile the check out and continue with the replaced value). -/
def updateParent (g : SlotGraph) (slot parent : Nat) : SlotGraph × Bool :=
  let r := mapInsert g slot parent
  (r.1, match r.2 with
        | none => true
        | some prev => decide (prev = parent))

/-- The walk inside `extract_chain_of`: scan the drained edges in decreasing
key order; whenever the edge for the current chain head is met, record its
parent and continue from the parent. -/
def chainLoop : List (Nat × Nat) → Nat → List Nat → List Nat
  | [], _, res => res
  | (k, p) :: rest, s, res =>
    if s = k then chainLoop rest p (p :: res) else chainLoop rest s res

/-- Embedding of `SlotGraph::extract_chain_of` (accounts_history.rs lines
24-38): split the map at `slot + 1` (entries with key at most `slot` are
drained, the rest stay), then walk parent links from `slot` through the
drained entries in reverse order.  Returns the chain (as a list whose
membership is the HashSet membership) and the remaining map. -/
def extractChainOf (g : SlotGraph) (slot : Nat) : List Nat × SlotGraph :=
  let removed := g.filter (fun e => decide (e.1 ≤ slot))
  let remaining := g.filter (fun e => decide (slot < e.1))
  (chainLoop removed.reverse slot [slot], remaining)

/-! ### The history batcher flush -/

/-- Lexicographic strict order on byte strings (the `Ord` instance of
`Vec<u8>` used by the tuple comparison in `order_key`). -/
def bytesLt : List Nat → List Nat → Bool
  | [], [] => false
  | [], _ :: _ => true
  | _ :: _, [] => false
  | a :: as, b :: bs =>
    if a < b then true else if b < a then false else bytesLt as bs

/-- The non-strict total order induced by `AccountsHistoryBatcher::order_key`
(accounts_history.rs lines 94-96): lexicographic on
`(slot, pubkey, write_version)`. -/
def orderKeyLe (a b : DbAccountInfo) : Prop :=
  a.slot < b.slot ∨
    (a.slot = b.slot ∧
      (bytesLt a.pubkey b.pubkey = true ∨
        (a.pubkey = b.pubkey ∧ a.write_version ≤ b.write_version)))

instance (a b : DbAccountInfo) : Decidable (orderKeyLe a b) := by
  unfold orderKeyLe; infer_instance

/-- Admissible results of `updates.sort_unstable_by(order_key comparison)`:
any permutation of the input that is weakly sorted by `order_key`.  The
standard-library unstable sort guarantees nothing further (in particular it
does not promise to keep the incoming order of elements with equal keys), so
the flush theorems quantify over every admissible result. -/
def IsSortedPerm (updates sorted : List DbAccountInfo) : Prop :=
  updates.Perm sorted ∧ sorted.Pairwise orderKeyLe

instance (u s : List DbAccountInfo) : Decidable (IsSortedPerm u s) := by
  unfold IsSortedPerm; infer_instance

/-- The batch key of an update: `(slot, pubkey)`
(accounts_history.rs lines 98-100). -/
def batchKey (a : DbAccountInfo) : Nat × List Nat :=
  (a.slot, a.pubkey)

/-- Embedding of the `send_nonempty` closure: an empty batch produces no
callback invocation, a non-empty batch produces one. -/
def sendNonempty (batch : List DbAccountInfo) : List (List DbAccountInfo) :=
  if batch = [] then [] else [batch]

/-- The loop of `AccountsHistoryBatcher::flush` over the drained prefix
(accounts_history.rs lines 79-90).  State: the batch under construction, the
current batch key (initially `(0, [])` in the source), and the batches
emitted so far.  Items whose slot is not in the notified chain are skipped;
a kept item whose batch key differs from the current key first flushes the
batch under construction.  Returns the emitted batches and the final batch
still under construction (flushed by the trailing `send_nonempty`). -/
def flushLoop (chain : List Nat) :
    List DbAccountInfo → List DbAccountInfo → Nat × List Nat →
    List (List DbAccountInfo) → List (List DbAccountInfo) × List DbAccountInfo
  | [], batch, _, out => (out, batch)
  | item :: rest, batch, key, out =>
    if item.slot ∈ chain then
      if batchKey item = key then
        flushLoop chain rest (batch ++ [item]) key out
      else
        flushLoop chain rest [item] (batchKey item) (out ++ sendNonempty batch)
    else
      flushLoop chain rest batch key out

/-- The outcome of one `flush` call. -/
structure FlushResult where
  /-- The batches handed to `batch_cb`, in call order. -/
  batches : List (List DbAccountInfo)
  /-- The pending updates left in the batcher. -/
  updates : List DbAccountInfo
  /-- The slot graph left in the batcher. -/
  graph : SlotGraph
  deriving DecidableEq, Repr

/-- The position of the first pending update with slot above the rooted
slot (`updates.iter().position(|u| u.slot > slot).unwrap_or(len)`). -/
def drainEndOf (sorted : List DbAccountInfo) (rooted : Nat) : Nat :=
  sorted.findIdx (fun u => decide (rooted < u.slot))

/-- The notified-slots chain a flush computes. -/
def chainOf (g : SlotGraph) (rooted : Nat) : List Nat :=
  (extractChainOf g rooted).1

/-- Embedding of `AccountsHistoryBatcher::flush` (accounts_history.rs lines
56-92) after the sort: `sorted` is the post-sort pending-updates vector (see
`IsSortedPerm`).  `drainEndOf` locates the first update with slot above the
rooted slot (or the length when there is none); the prefix up to it is
drained and grouped, the rest stays pending. -/
def flushEmit (sorted : List DbAccountInfo) (g : SlotGraph) (rooted : Nat) :
    FlushResult :=
  let r := flushLoop (chainOf g rooted)
    (sorted.take (drainEndOf sorted rooted)) [] (0, []) []
  { batches := r.1 ++ sendNonempty r.2
    updates := sorted.drop (drainEndOf sorted rooted)
    graph := (extractChainOf g rooted).2 }

/-! ### The buffered account client -/

/-- The slice of `BufferedBigtableClient` state that `update_account` reads
and writes (parallel_bigtable_client.rs lines 85-95). -/
structure BufferedState where
  batch_size : Nat
  pending_account_updates : List DbAccountInfo
  deriving DecidableEq, Repr

/-- A multi-row remote write: target table and `(row key, account)` cells.
The protobuf conversion of each cell is field-for-field
(`accounts::Account::from`); the cell is kept as the account itself since
the claims only concern the keys and the row count. -/
structure BigtableWrite where
  table : String
  rows : List (List Char × DbAccountInfo)
  deriving DecidableEq, Repr

/-- What one `update_account` call did. -/
inductive UpdateOutcome where
  /-- Returned `Ok((0, 0))` without touching the remote store. -/
  | buffered : UpdateOutcome
  /-- Issued the given single multi-row write. -/
  | wrote (w : BigtableWrite) : UpdateOutcome
  deriving DecidableEq, Repr

/-- Embedding of `BufferedBigtableClient::update_account` (account.rs lines
138-182): push the account onto the pending buffer; when the buffer length
equals `batch_size`, drain it and issue one multi-row write to the
`account` table with every row keyed by the base58 pubkey; otherwise return
buffered success `(0, 0)`. -/
def update_account (st : BufferedState) (acc : DbAccountInfo) :
    BufferedState × UpdateOutcome :=
  let pending := st.pending_account_updates ++ [acc]
  if pending.length = st.batch_size then
    ({ st with pending_account_updates := [] },
      .wrote { table := "account"
               rows := pending.map (fun a => (base58Encode a.pubkey, a)) })
  else
    ({ st with pending_account_updates := pending }, .buffered)

/-! ### The worker receive-timeout branch -/

/-- The worker-local state the timeout branch touches: the local
startup-done acknowledgement flag (`BigtableClientWorker::is_startup_done`)
and the pending buffer of its buffered client. -/
structure WorkerState where
  is_startup_done : Bool
  client : BufferedState
  deriving DecidableEq, Repr

/-- Embedding of `BigtableClientWorker::notify_end_of_startup`
(parallel_bigtable_client.rs lines 203-205).  The source body is `Ok(())`:
it performs no work at all — in particular it does not drain
`pending_account_updates`. -/
def workerNotifyEndOfStartup (w : WorkerState) : WorkerState := w

/-- Embedding of the `RecvTimeoutError::Timeout` arm of
`BigtableClientWorker::do_work` (parallel_bigtable_client.rs lines 281-294):
when the shared startup-done flag is set and this worker has not yet
acknowledged it, run the worker notify-end-of-startup routine, mark the
local flag, and increment the shared startup-done counter. -/
def timeoutBranch (w : WorkerState) (shared_is_startup_done : Bool)
    (startup_done_count : Nat) : WorkerState × Nat :=
  if !w.is_startup_done && shared_is_startup_done then
    let w1 := workerNotifyEndOfStartup w
    ({ w1 with is_startup_done := true }, startup_done_count + 1)
  else
    (w, startup_done_count)

/-! ### Concrete example values

The accounts of the differential-encoding boundary scenario of the spec
(two updates to one account in slot 10: rent_epoch 100 then 101,
write_version 1 then 2, lamports 500 then 400, data [1,2] then [3]), and a
generic account used to instantiate witnesses. -/

/-- First update of the differential-encoding example. -/
def specDiffPrev : DbAccountInfo :=
  { pubkey := List.replicate 32 7
    lamports := 500
    owner := List.replicate 32 9
    executable := false
    rent_epoch := 100
    data := [1, 2]
    slot := 10
    write_version := 1
    updated_since_epoch := 0 }

/-- Second update of the differential-encoding example. -/
def specDiffNext : DbAccountInfo :=
  { specDiffPrev with
    lamports := 400
    rent_epoch := 101
    data := [3]
    write_version := 2 }

/-! ### Claim theorems -/

/-- C1 (code bug): the differential encoder stores `next - prev` for `slot`
and `write_version`, but for `rent_epoch` the source computes
`prev.rent_epoch - next.rent_epoch` — the operands are reversed.  On the
two-update example of the claim (rent_epoch 100 then 101, same slot,
write_version 1 then 2, lamports 400, data [3]) the second encoded element
therefore carries the wrapped value `2^64 - 1` in `rent_epoch` (a panic in a
debug build) instead of the claimed difference 1, while all the other
claimed fields match. -/
theorem claim1_rent_epoch_diff_reversed :
    as_account_batch_item specDiffPrev specDiffNext =
      { data := [3], lamports := 400, rent_epoch := U64 - 1, slot := 0,
        write_version := 1, updated_on := 0 } ∧
    U64 - 1 ≠ 1 := by
  refine ⟨by decide, by decide⟩

/-- C3 (code bug): the worker routine invoked on the startup-done timeout
path, `BigtableClientWorker::notify_end_of_startup`, has body `Ok(())`.  On
a worker holding one pending buffered account update, the timeout branch
with the shared startup flag set increments the startup-done counter and
marks the local acknowledgement while the pending buffer is left untouched:
no pending-account flush happens before (or after) the increment. -/
theorem claim3_startup_ack_without_flush :
    timeoutBranch
      { is_startup_done := false
        client := { batch_size := 10,
                    pending_account_updates := [specDiffPrev] } }
      true 0 =
    ({ is_startup_done := true
       client := { batch_size := 10,
                   pending_account_updates := [specDiffPrev] } }, 1) := by
  decide

/-- C4: `update_account` appends the account to the pending buffer; while
the buffer stays strictly below `batch_size` it returns buffered success
(`Ok((0, 0))` in the source) and issues no remote write, and exactly when
the buffer reaches `batch_size` it is fully drained and one multi-row write
of `batch_size` rows, each keyed by the base58 pubkey, goes to the
`account` table. -/
theorem claim4_update_account_buffering (st : BufferedState)
    (acc : DbAccountInfo) :
    (st.pending_account_updates.length + 1 < st.batch_size →
      update_account st acc =
        ({ st with pending_account_updates :=
              st.pending_account_updates ++ [acc] }, .buffered)) ∧
    (st.pending_account_updates.length + 1 = st.batch_size →
      update_account st acc =
        ({ st with pending_account_updates := [] },
          .wrote { table := "account"
                   rows := (st.pending_account_updates ++ [acc]).map
                     (fun a => (base58Encode a.pubkey, a)) }) ∧
      ((st.pending_account_updates ++ [acc]).map
          (fun a => (base58Encode a.pubkey, a))).length = st.batch_size) := by
  constructor
  · intro hlt
    unfold update_account
    rw [if_neg]
    simp only [List.length_append, List.length_cons, List.length_nil]
    omega
  · intro heq
    have hlen : (st.pending_account_updates ++ [acc]).length = st.batch_size := by
      simpa using heq
    constructor
    · unfold update_account
      rw [if_pos hlen]
    · simpa using hlen

/-- Witness for C4 at `batch_size = 1` and an empty buffer: the append
reaches the threshold at once and produces the single-row write keyed by
the base58 pubkey. -/
theorem claim4_witness :
    update_account { batch_size := 1, pending_account_updates := [] }
        specDiffPrev =
      ({ batch_size := 1, pending_account_updates := [] },
        .wrote { table := "account"
                 rows := [(base58Encode specDiffPrev.pubkey, specDiffPrev)] }) :=
  ((claim4_update_account_buffering
      { batch_size := 1, pending_account_updates := [] } specDiffPrev).2
    (by decide)).1

/-- On a well-formed graph that already binds `s` to `p`, `mapInsert`
splits the list around that entry and replaces its value, returning the old
value. -/
theorem mapInsert_replace (g : SlotGraph) (s p p' : Nat) (hWF : GraphWF g)
    (hmem : (s, p) ∈ g) :
    ∃ g₁ g₂, g = g₁ ++ (s, p) :: g₂ ∧
      mapInsert g s p' = (g₁ ++ (s, p') :: g₂, some p) := by
  induction g with
  | nil => cases hmem
  | cons e rest ih =>
    obtain ⟨k, v⟩ := e
    have hWFrest : GraphWF rest := (List.pairwise_cons.mp hWF).2
    have hlt : ∀ x ∈ rest, k < x.1 := by
      intro x hx
      exact (List.pairwise_cons.mp hWF).1 x hx
    rcases List.mem_cons.mp hmem with hm | hm
    · injection hm with hk hv
      subst hk; subst hv
      refine ⟨[], rest, rfl, ?_⟩
      simp [mapInsert]
    · have hks : k < s := hlt (s, p) hm
      obtain ⟨g₁, g₂, hsplit, hins⟩ := ih hWFrest hm
      refine ⟨(k, v) :: g₁, g₂, by simp [hsplit], ?_⟩
      have h1 : ¬ s < k := by omega
      have h2 : ¬ s = k := by omega
      simp only [mapInsert, if_neg h1, if_neg h2, hins]
      simp

/-- C8 counterexample: record slot 5 with parent 3, then call
`update_slot_parent(5, 4)`.  The recorded edge changes to `(5, 4)` and the
entry `(5, 3)` is gone: the parent is not immutable, so the claim as stated
is false (and in a release build nothing aborts — `debug_assert_eq` is
compiled out; the embedded assertion outcome `false` records that only a
debug build would panic, after the value has already been replaced). -/
theorem claim8_counterexample :
    (updateParent ((updateParent [] 5 3).1) 5 4).1 = [(5, 4)] ∧
    (5, 3) ∉ (updateParent ((updateParent [] 5 3).1) 5 4).1 ∧
    (updateParent ((updateParent [] 5 3).1) 5 4).2 = false := by
  decide

/-- C8 (amended): calling `update_slot_parent(slot, parent)` when the graph
already binds `slot` to a different parent trips the `debug_assert_eq`
check — which aborts debug builds only; release builds compile it out — and
in either build the edge is replaced by the new parent before the check
runs: the recorded parent of a slot is the most recently supplied value,
not the first. -/
theorem claim8_parent_replaced (g : SlotGraph) (s p p' : Nat)
    (hWF : GraphWF g) (hmem : (s, p) ∈ g) :
    ((updateParent g s p').2 = true ↔ p' = p) ∧
    (s, p') ∈ (updateParent g s p').1 ∧
    (p' ≠ p → (s, p) ∉ (updateParent g s p').1) := by
  obtain ⟨g₁, g₂, hsplit, hins⟩ := mapInsert_replace g s p p' hWF hmem
  have hWF' : GraphWF (g₁ ++ (s, p) :: g₂) := hsplit ▸ hWF
  unfold GraphWF at hWF'
  rw [List.pairwise_append] at hWF'
  obtain ⟨hWF₁, hWF₂, hcross⟩ := hWF'
  refine ⟨?_, ?_, ?_⟩
  · simp [updateParent, hins, eq_comm]
  · simp [updateParent, hins]
  · intro hne hmem'
    simp only [updateParent, hins, List.mem_append, List.mem_cons] at hmem'
    rcases hmem' with h | h | h
    · exact absurd (hcross (s, p) h (s, p) (List.mem_cons_self _ _)) (by omega)
    · exact hne (by injection h with _ hv; omega)
    · exact absurd ((List.pairwise_cons.mp hWF₂).1 (s, p) h) (by omega)

/-- Witness for the amended C8 on the one-edge graph binding 5 to 3: the
conflicting call replaces the edge with `(5, 4)` and its debug assertion
outcome is not `true`. -/
theorem claim8_witness :
    (5, 4) ∈ (updateParent [(5, 3)] 5 4).1 ∧
    (updateParent [(5, 3)] 5 4).2 ≠ true :=
  ⟨(claim8_parent_replaced [(5, 3)] 5 3 4 (by decide) (by decide)).2.1,
   fun h =>
     absurd ((claim8_parent_replaced [(5, 3)] 5 3 4 (by decide)
       (by decide)).1.mp h) (by decide)⟩

/-! ### Lexicographic facts about the history row key -/

/-- `hexBE` always yields exactly the requested number of digits. -/
theorem hexBE_length (k n : Nat) : (hexBE k n).length = k := by
  induction k generalizing n with
  | zero => rfl
  | succ k ih => simp [hexBE, ih]

/-- A common prefix preserves strict lexicographic order of the tails. -/
theorem listLt_append_left (xs : List Char) {zs ws : List Char}
    (h : zs < ws) : xs ++ zs < xs ++ ws := by
  induction xs with
  | nil => simpa using h
  | cons a as ih => exact List.Lex.cons ih

/-- Strict lexicographic order of equal-length prefixes decides the order of
any extensions. -/
theorem listLt_append_of_lt {xs ys : List Char} (h : xs < ys)
    (hlen : xs.length = ys.length) (zs ws : List Char) :
    xs ++ zs < ys ++ ws := by
  induction h generalizing zs ws with
  | nil => simp at hlen
  | @rel a l1 b l2 hab => exact List.Lex.rel hab
  | @cons a l1 l2 _ ih =>
    exact List.Lex.cons (ih (by simpa using hlen) zs ws)

/-- Uppercase hexadecimal digit characters are ordered like their values. -/
theorem hexDigit_lt_of_lt {d₁ d₂ : Nat} (h : d₁ < d₂) (h2 : d₂ < 16) :
    hexDigit d₁ < hexDigit d₂ := by
  have hall : ∀ e < 16, ∀ d < e, hexDigit d < hexDigit e := by decide
  exact hall d₂ h2 d₁ h

/-- Equal-width big-endian hexadecimal renderings are ordered
lexicographically like their values. -/
theorem hexBE_lt_of_lt :
    ∀ (k : Nat) {n m : Nat}, n < m → m < 16 ^ k →
      hexBE k n < hexBE k m := by
  intro k
  induction k with
  | zero =>
    intro n m h hm
    simp only [pow_zero] at hm
    omega
  | succ k ih =>
    intro n m h hm
    show hexBE k (n / 16) ++ [hexDigit (n % 16)] <
      hexBE k (m / 16) ++ [hexDigit (m % 16)]
    by_cases hq : n / 16 < m / 16
    · have hmk : m / 16 < 16 ^ k := by
        rw [Nat.div_lt_iff_lt_mul (by norm_num)]
        calc m < 16 ^ (k + 1) := hm
          _ = 16 ^ k * 16 := by rw [pow_succ]
      exact listLt_append_of_lt (ih hq hmk)
        (by simp [hexBE_length]) _ _
    · have hqe : n / 16 = m / 16 :=
        le_antisymm (Nat.div_le_div_right (le_of_lt h)) (le_of_not_lt hq)
      have hr : n % 16 < m % 16 := by
        have h1 := Nat.div_add_mod n 16
        have h2 := Nat.div_add_mod m 16
        omega
      rw [hqe]
      exact listLt_append_left _
        (List.Lex.rel (hexDigit_lt_of_lt hr (Nat.mod_lt _ (by norm_num))))

/-- The u64 complement reverses strict order. -/
theorem comp64_lt_of_lt {a b : Nat} (h : a < b) (hb : b < U64) :
    comp64 b < comp64 a := by
  unfold comp64 U64 at *
  omega

/-- The u64 complement stays below `16 ^ 16 = 2 ^ 64`. -/
theorem comp64_lt_pow (a : Nat) : comp64 a < 16 ^ 16 := by
  unfold comp64 U64
  norm_num
  omega

/-- C5: for a non-empty batch, `update_accounts_batch` writes the single
row under the key formed from the first element: base58 pubkey, slash, the
16-digit uppercase-hex complement of its slot, slash, the 16-digit
uppercase-hex complement of its write_version; and for a fixed pubkey this
key ordering is the reverse of the numeric `(slot, write_version)` order. -/
theorem claim5_history_row_key :
    (∀ prev rest,
        update_accounts_batch (prev :: rest) =
          some (⟨base58Encode prev.pubkey
                   ++ '/' :: hexBE 16 (comp64 prev.slot)
                   ++ '/' :: hexBE 16 (comp64 prev.write_version)⟩,
                protoOfDb prev :: diffItems prev rest) ∧
        (hexBE 16 (comp64 prev.slot)).length = 16 ∧
        (hexBE 16 (comp64 prev.write_version)).length = 16) ∧
    (∀ a b : DbAccountInfo, a.pubkey = b.pubkey →
      b.slot < U64 → b.write_version < U64 →
      (a.slot < b.slot ∨
        (a.slot = b.slot ∧ a.write_version < b.write_version)) →
      historyRowKey b < historyRowKey a) := by
  constructor
  · intro prev rest
    exact ⟨rfl, hexBE_length _ _, hexBE_length _ _⟩
  · intro a b hpk hb hwb hlt
    rw [String.lt_iff_toList_lt]
    show historyRowKeyChars b < historyRowKeyChars a
    unfold historyRowKeyChars
    rw [← hpk]
    rcases hlt with h | ⟨hs, hw⟩
    · have hc : comp64 b.slot < comp64 a.slot := comp64_lt_of_lt h hb
      have h16 : hexBE 16 (comp64 b.slot) < hexBE 16 (comp64 a.slot) :=
        hexBE_lt_of_lt 16 hc (comp64_lt_pow _)
      have hstep := listLt_append_of_lt h16 (by simp [hexBE_length])
        ('/' :: hexBE 16 (comp64 b.write_version))
        ('/' :: hexBE 16 (comp64 a.write_version))
      have := listLt_append_left (base58Encode a.pubkey ++ ['/']) hstep
      simpa [List.append_assoc] using this
    · rw [hs]
      have hc : comp64 b.write_version < comp64 a.write_version :=
        comp64_lt_of_lt hw hwb
      have h16 : hexBE 16 (comp64 b.write_version) <
          hexBE 16 (comp64 a.write_version) :=
        hexBE_lt_of_lt 16 hc (comp64_lt_pow _)
      have := listLt_append_left
        (base58Encode a.pubkey ++ '/' :: hexBE 16 (comp64 b.slot) ++ ['/']) h16
      simpa [List.append_assoc] using this

/-- Witness for C5 on the differential-encoding example pair (same pubkey
and slot, write_version 1 then 2): the key of the later update sorts
strictly before the key of the earlier one. -/
theorem claim5_witness :
    historyRowKey specDiffNext < historyRowKey specDiffPrev :=
  claim5_history_row_key.2 specDiffPrev specDiffNext rfl
    (by decide) (by decide) (Or.inr ⟨rfl, by decide⟩)

/-! ### What a flush emits: membership -/

/-- An update occurs in one of the emitted batches. -/
def memBatches (x : DbAccountInfo) (bs : List (List DbAccountInfo)) : Prop :=
  ∃ b ∈ bs, x ∈ b

theorem memBatches_append {x : DbAccountInfo}
    {bs cs : List (List DbAccountInfo)} :
    memBatches x (bs ++ cs) ↔ memBatches x bs ∨ memBatches x cs := by
  unfold memBatches
  simp only [List.mem_append]
  constructor
  · rintro ⟨b, hb | hb, hxb⟩
    · exact Or.inl ⟨b, hb, hxb⟩
    · exact Or.inr ⟨b, hb, hxb⟩
  · rintro (⟨b, hb, hxb⟩ | ⟨b, hb, hxb⟩)
    · exact ⟨b, Or.inl hb, hxb⟩
    · exact ⟨b, Or.inr hb, hxb⟩

theorem memBatches_send {x : DbAccountInfo} {batch : List DbAccountInfo} :
    memBatches x (sendNonempty batch) ↔ x ∈ batch := by
  unfold memBatches sendNonempty
  split
  · next h => subst h; simp
  · simp

/-- Membership characterization of the flush loop: an update lands in an
emitted batch or in the final open batch exactly when it was already there,
or it occurs in the remaining items with a notified slot. -/
theorem flushLoop_mem (chain : List Nat) (items : List DbAccountInfo) :
    ∀ (batch : List DbAccountInfo) (key : Nat × List Nat)
      (out : List (List DbAccountInfo)) (x : DbAccountInfo),
      (memBatches x (flushLoop chain items batch key out).1 ∨
        x ∈ (flushLoop chain items batch key out).2) ↔
      (memBatches x out ∨ x ∈ batch ∨ (x ∈ items ∧ x.slot ∈ chain)) := by
  induction items with
  | nil =>
    intro batch key out x
    simp [flushLoop]
  | cons item rest ih =>
    intro batch key out x
    by_cases hc : item.slot ∈ chain
    · have hxi : x = item → x.slot ∈ chain := fun h => h ▸ hc
      by_cases hk : batchKey item = key
      · rw [flushLoop, if_pos hc, if_pos hk, ih]
        simp only [List.mem_append, List.mem_cons, List.not_mem_nil,
          or_false]
        tauto
      · rw [flushLoop, if_pos hc, if_neg hk, ih, memBatches_append,
          memBatches_send]
        simp only [List.mem_cons, List.not_mem_nil, or_false]
        tauto
    · have hxn : x = item → x.slot ∉ chain := fun h => h ▸ hc
      rw [flushLoop, if_neg hc, ih]
      simp only [List.mem_cons]
      tauto

/-- Membership characterization of a whole flush: an update is emitted in
some batch exactly when it lies in the drained prefix and its slot is on
the notified chain. -/
theorem flushEmit_mem (sorted : List DbAccountInfo) (g : SlotGraph)
    (rooted : Nat) (x : DbAccountInfo) :
    memBatches x (flushEmit sorted g rooted).batches ↔
      (x ∈ sorted.take (drainEndOf sorted rooted) ∧
        x.slot ∈ chainOf g rooted) := by
  show memBatches x
    ((flushLoop (chainOf g rooted)
        (sorted.take (drainEndOf sorted rooted)) [] (0, []) []).1 ++
      sendNonempty
        (flushLoop (chainOf g rooted)
          (sorted.take (drainEndOf sorted rooted)) [] (0, []) []).2) ↔ _
  rw [memBatches_append, memBatches_send, flushLoop_mem]
  simp [memBatches]

/-! ### Sortedness and the drain window -/

/-- The lexicographic order on the full sort key weakly orders the slots. -/
theorem slotLe_of_orderKeyLe {a b : DbAccountInfo} (h : orderKeyLe a b) :
    a.slot ≤ b.slot := by
  rcases h with h | ⟨h, _⟩
  · omega
  · omega

/-- Every update behind the drain window has a slot above the rooted slot
(uses the weak slot ordering of the sorted vector). -/
theorem drop_slot_gt {sorted : List DbAccountInfo} {rooted : Nat}
    (hp : sorted.Pairwise orderKeyLe) {x : DbAccountInfo}
    (hx : x ∈ sorted.drop (drainEndOf sorted rooted)) : rooted < x.slot := by
  have hdef : drainEndOf sorted rooted =
      List.findIdx (fun u => decide (rooted < u.slot)) sorted := rfl
  rw [hdef] at hx
  set d := List.findIdx (fun u => decide (rooted < u.slot)) sorted with hd
  obtain ⟨j, hj, hget⟩ := List.mem_iff_getElem.mp hx
  have hjd : d + j < sorted.length := by
    have := List.length_drop d sorted
    omega
  have hdlen : d < sorted.length := by omega
  have hroot : rooted < sorted[d].slot := by
    have := @List.findIdx_getElem DbAccountInfo
      (fun u => decide (rooted < u.slot)) sorted hdlen
    simpa using this
  have hgetd : (sorted.drop d)[j] = sorted[d + j] := List.getElem_drop sorted
  rcases Nat.eq_zero_or_pos j with rfl | hjpos
  · rw [← hget, hgetd]
    simpa using hroot
  · have hlt : sorted[d].slot ≤ sorted[d + j].slot := by
      have := List.pairwise_iff_getElem.mp hp d (d + j) hdlen hjd (by omega)
      exact slotLe_of_orderKeyLe this
    rw [← hget, hgetd]
    omega

/-- An update with slot at most the rooted slot lies inside the drain
window. -/
theorem mem_take_drainEnd {sorted : List DbAccountInfo} {rooted : Nat}
    (hp : sorted.Pairwise orderKeyLe) {x : DbAccountInfo} (hx : x ∈ sorted)
    (hle : x.slot ≤ rooted) : x ∈ sorted.take (drainEndOf sorted rooted) := by
  rcases List.mem_append.mp
      ((List.take_append_drop (drainEndOf sorted rooted) sorted) ▸ hx)
    with h | h
  · exact h
  · exact absurd (drop_slot_gt hp h) (by omega)

/-! ### The notified chain stays at or below the rooted slot -/

theorem chainLoop_le {rooted : Nat} :
    ∀ (l : List (Nat × Nat)) (s : Nat) (res : List Nat),
      (∀ e ∈ l, e.2 < e.1) → (∀ e ∈ l, e.1 ≤ rooted) → s ≤ rooted →
      (∀ m ∈ res, m ≤ rooted) → ∀ m ∈ chainLoop l s res, m ≤ rooted := by
  intro l
  induction l with
  | nil =>
    intro s res _ _ _ hres m hm
    exact hres m hm
  | cons e rest ih =>
    intro s res hpc hle hs hres m hm
    obtain ⟨k, p⟩ := e
    have hpk : p < k := hpc (k, p) (List.mem_cons_self _ _)
    have hkr : k ≤ rooted := hle (k, p) (List.mem_cons_self _ _)
    rw [chainLoop] at hm
    split at hm
    · exact ih p (p :: res)
        (fun e he => hpc e (List.mem_cons_of_mem _ he))
        (fun e he => hle e (List.mem_cons_of_mem _ he))
        (by omega)
        (by
          intro n hn
          rcases List.mem_cons.mp hn with rfl | hn
          · omega
          · exact hres n hn)
        m hm
    · exact ih s res
        (fun e he => hpc e (List.mem_cons_of_mem _ he))
        (fun e he => hle e (List.mem_cons_of_mem _ he))
        hs hres m hm

/-- When every recorded edge points from a slot to a strictly smaller
parent, the notified chain contains only slots at or below the rooted
slot. -/
theorem chainOf_le {g : SlotGraph} {rooted : Nat}
    (hpc : ∀ e ∈ g, e.2 < e.1) :
    ∀ m ∈ chainOf g rooted, m ≤ rooted := by
  intro m hm
  have hdef : chainOf g rooted =
      chainLoop (g.filter (fun e => decide (e.1 ≤ rooted))).reverse
        rooted [rooted] := rfl
  rw [hdef] at hm
  refine chainLoop_le (g.filter (fun e => decide (e.1 ≤ rooted))).reverse
    rooted [rooted] ?_ ?_ (le_refl _) ?_ m hm
  · intro e he
    exact hpc e (List.mem_filter.mp (List.mem_reverse.mp he)).1
  · intro e he
    simpa using (List.mem_filter.mp (List.mem_reverse.mp he)).2
  · intro n hn
    rcases List.mem_cons.mp hn with rfl | hn
    · exact le_refl _
    · cases hn

/-- C2 (amended): for every flush, a pending update is handed to
`emit_batch` in some batch exactly when its slot lies on the committed
chain that `extract_chain_of` reconstructs by walking parent links back
from the rooted slot.  The chain contains the rooted slot itself and every
parent the walk reaches, whether or not those slots carry their own
recorded edge; runs whose slot is not reached by the walk — abandoned
forks, and drained slots not connected to the rooted slot — are discarded.
(The hypothesis that each recorded edge points to a strictly smaller parent
is the slot-progression invariant of the spec.) -/
theorem claim2_emitted_iff_on_chain (updates sorted : List DbAccountInfo)
    (g : SlotGraph) (rooted : Nat) (hadm : IsSortedPerm updates sorted)
    (hpc : ∀ e ∈ g, e.2 < e.1) (x : DbAccountInfo) (hx : x ∈ updates) :
    (∃ b ∈ (flushEmit sorted g rooted).batches, x ∈ b) ↔
      x.slot ∈ chainOf g rooted := by
  have hxs : x ∈ sorted := hadm.1.mem_iff.mp hx
  show memBatches x (flushEmit sorted g rooted).batches ↔ _
  rw [flushEmit_mem]
  constructor
  · exact fun h => h.2
  · intro h
    exact ⟨mem_take_drainEnd hadm.2 hxs (chainOf_le hpc x.slot h), h⟩

/-- C2 counterexample to the claim as stated: with the single recorded edge
from slot 12 to parent 10, flushing at rooted slot 12 emits the pending
update at slot 10 even though slot 10 has no recorded parent edge of its
own — the claim says such a run is discarded and never emitted.  (Slot 10
is emitted because it is the parent the chain walk reaches from 12.) -/
theorem claim2_counterexample :
    (∃ b ∈ (flushEmit [specDiffPrev] [(12, 10)] 12).batches,
        specDiffPrev ∈ b) ∧
    IsSortedPerm [specDiffPrev] [specDiffPrev] ∧
    specDiffPrev.slot = 10 ∧
    ([(12, 10)] : SlotGraph).all (fun e => decide (e.1 ≠ 10)) = true := by
  decide

/-- Witness for the amended C2: with an empty slot graph, the rooted slot
itself is the whole chain, and a pending update at the rooted slot is
emitted. -/
theorem claim2_witness :
    ∃ b ∈ (flushEmit [specDiffPrev] [] 10).batches, specDiffPrev ∈ b :=
  (claim2_emitted_iff_on_chain [specDiffPrev] [specDiffPrev] [] 10
      (by decide) (by intro e he; cases he) specDiffPrev (by decide)).mpr
    (by decide)

/-! ### Emitted batches are never empty -/

theorem sendNonempty_ne {batch b : List DbAccountInfo}
    (h : b ∈ sendNonempty batch) : b ≠ [] := by
  unfold sendNonempty at h
  split at h
  · cases h
  · next hne =>
    rw [List.mem_singleton.mp h]
    exact hne

theorem sendNonempty_eq {batch b : List DbAccountInfo}
    (h : b ∈ sendNonempty batch) : b = batch := by
  unfold sendNonempty at h
  split at h
  · cases h
  · exact List.mem_singleton.mp h

theorem flushLoop_out_nonempty (chain : List Nat)
    (items : List DbAccountInfo) :
    ∀ (batch : List DbAccountInfo) (key : Nat × List Nat)
      (out : List (List DbAccountInfo)),
      (∀ b ∈ out, b ≠ []) →
      ∀ b ∈ (flushLoop chain items batch key out).1, b ≠ [] := by
  induction items with
  | nil =>
    intro batch key out hout b hb
    exact hout b hb
  | cons item rest ih =>
    intro batch key out hout
    by_cases hc : item.slot ∈ chain
    · by_cases hk : batchKey item = key
      · rw [flushLoop, if_pos hc, if_pos hk]
        exact ih _ _ _ hout
      · rw [flushLoop, if_pos hc, if_neg hk]
        refine ih _ _ _ ?_
        intro b hb
        rcases List.mem_append.mp hb with h | h
        · exact hout b h
        · exact sendNonempty_ne h
    · rw [flushLoop, if_neg hc]
      exact ih _ _ _ hout

/-- C7: every batch a flush hands to the callback is non-empty, and
`update_accounts_batch` (whose source unwraps `first()`) therefore succeeds
in extracting the first element and its row key on every such batch. -/
theorem claim7_batches_nonempty (sorted : List DbAccountInfo)
    (g : SlotGraph) (rooted : Nat) :
    ∀ b ∈ (flushEmit sorted g rooted).batches,
      b ≠ [] ∧ (update_accounts_batch b).isSome = true := by
  intro b hb
  have hb' : b ∈ (flushLoop (chainOf g rooted)
      (sorted.take (drainEndOf sorted rooted)) [] (0, []) []).1 ++
      sendNonempty (flushLoop (chainOf g rooted)
        (sorted.take (drainEndOf sorted rooted)) [] (0, []) []).2 := hb
  have hne : b ≠ [] := by
    rcases List.mem_append.mp hb' with h | h
    · exact flushLoop_out_nonempty _ _ _ _ _ (by intro b hb; cases hb) b h
    · exact sendNonempty_ne h
  refine ⟨hne, ?_⟩
  cases b with
  | nil => exact absurd rfl hne
  | cons p rest => rfl

/-- Witness for C7: a one-update flush at its own rooted slot emits the
singleton batch, which is non-empty and accepted by
`update_accounts_batch`. -/
theorem claim7_witness :
    ([specDiffPrev] : List DbAccountInfo) ≠ [] ∧
    (update_accounts_batch [specDiffPrev]).isSome = true :=
  claim7_batches_nonempty [specDiffPrev] [] 10 [specDiffPrev] (by decide)

/-! ### Write-version order inside emitted batches -/

/-- Weakly ascending write versions. -/
def wvLe (u v : DbAccountInfo) : Prop :=
  u.write_version ≤ v.write_version

instance (u v : DbAccountInfo) : Decidable (wvLe u v) := by
  unfold wvLe; infer_instance

theorem bytesLt_irrefl : ∀ p : List Nat, bytesLt p p = false := by
  intro p
  induction p with
  | nil => rfl
  | cons a as ih => simp [bytesLt, ih]

/-- Two updates with equal batch keys that are ordered by the sort key are
ordered by write version. -/
theorem wv_le_of_key_eq {u v : DbAccountInfo} (h : orderKeyLe u v)
    (hk : batchKey u = batchKey v) : u.write_version ≤ v.write_version := by
  unfold batchKey at hk
  rw [Prod.mk.injEq] at hk
  obtain ⟨hs, hp⟩ := hk
  rcases h with h | ⟨-, h | ⟨-, h⟩⟩
  · omega
  · rw [hp, bytesLt_irrefl] at h
    cases h
  · exact h

/-- Invariant of the flush loop: with the remaining items sorted by the
full key, every emitted batch and the open batch stay weakly sorted by
write version. -/
theorem flushLoop_batches_sorted (chain : List Nat)
    (items : List DbAccountInfo) :
    ∀ (batch : List DbAccountInfo) (key : Nat × List Nat)
      (out : List (List DbAccountInfo)),
      items.Pairwise orderKeyLe →
      (∀ b ∈ out, b.Pairwise wvLe) →
      batch.Pairwise wvLe →
      (∀ u ∈ batch, batchKey u = key) →
      (∀ u ∈ batch, ∀ v ∈ items, orderKeyLe u v) →
      (∀ b ∈ (flushLoop chain items batch key out).1, b.Pairwise wvLe) ∧
        (flushLoop chain items batch key out).2.Pairwise wvLe := by
  induction items with
  | nil =>
    intro batch key out _ hout hbatch _ _
    exact ⟨hout, hbatch⟩
  | cons item rest ih =>
    intro batch key out hp hout hbatch hkey hrel
    obtain ⟨hhead, htail⟩ := List.pairwise_cons.mp hp
    by_cases hc : item.slot ∈ chain
    · by_cases hk : batchKey item = key
      · rw [flushLoop, if_pos hc, if_pos hk]
        refine ih (batch ++ [item]) key out htail hout ?_ ?_ ?_
        · rw [List.pairwise_append]
          refine ⟨hbatch, List.pairwise_singleton _ _, ?_⟩
          intro u hu v hv
          rw [List.mem_singleton.mp hv]
          exact wv_le_of_key_eq (hrel u hu item (List.mem_cons_self _ _))
            (by rw [hkey u hu, hk])
        · intro u hu
          rcases List.mem_append.mp hu with h | h
          · exact hkey u h
          · rw [List.mem_singleton.mp h]
            exact hk
        · intro u hu v hv
          rcases List.mem_append.mp hu with h | h
          · exact hrel u h v (List.mem_cons_of_mem _ hv)
          · rw [List.mem_singleton.mp h]
            exact hhead v hv
      · rw [flushLoop, if_pos hc, if_neg hk]
        refine ih [item] (batchKey item) (out ++ sendNonempty batch) htail
          ?_ (List.pairwise_singleton _ _) ?_ ?_
        · intro b hb
          rcases List.mem_append.mp hb with h | h
          · exact hout b h
          · rw [sendNonempty_eq h]
            exact hbatch
        · intro u hu
          rw [List.mem_singleton.mp hu]
        · intro u hu v hv
          rw [List.mem_singleton.mp hu]
          exact hhead v hv
    · rw [flushLoop, if_neg hc]
      exact ih batch key out htail hout hbatch hkey
        (fun u hu v hv => hrel u hu v (List.mem_cons_of_mem _ hv))

/-- C6 (amended): the flush sorts the pending updates ascending by
`(slot, pubkey, write_version)` with an unstable sort, so every emitted
batch is weakly ascending in write version; but since the source uses
`sort_unstable_by`, two pending updates with entirely equal sort keys are
not guaranteed to retain their insertion order (see the counterexample). -/
theorem claim6_batches_wv_sorted (updates sorted : List DbAccountInfo)
    (g : SlotGraph) (rooted : Nat) (hadm : IsSortedPerm updates sorted) :
    ∀ b ∈ (flushEmit sorted g rooted).batches, b.Pairwise wvLe := by
  intro b hb
  have hb' : b ∈ (flushLoop (chainOf g rooted)
      (sorted.take (drainEndOf sorted rooted)) [] (0, []) []).1 ++
      sendNonempty (flushLoop (chainOf g rooted)
        (sorted.take (drainEndOf sorted rooted)) [] (0, []) []).2 := hb
  have hinv := flushLoop_batches_sorted (chainOf g rooted)
    (sorted.take (drainEndOf sorted rooted)) [] (0, []) []
    (hadm.2.sublist (List.take_sublist _ _))
    (by intro b hb; cases hb)
    List.Pairwise.nil
    (by intro u hu; cases hu)
    (by intro u hu; cases hu)
  rcases List.mem_append.mp hb' with h | h
  · exact hinv.1 b h
  · rw [sendNonempty_eq h]
    exact hinv.2

/-- A second update identical to `specDiffPrev` except for its lamports:
same slot, pubkey and write version, so an unstable sort may order the two
either way. -/
def specDupSecond : DbAccountInfo :=
  { specDiffPrev with lamports := 999 }

/-- C6 counterexample to the claim as stated: on the pending sequence
`[specDiffPrev, specDupSecond]` — two distinct updates with entirely equal
`(slot, pubkey, write_version)` keys — the reversed vector is an admissible
result of `sort_unstable_by` (a permutation, weakly sorted by the key), and
the flush then emits the two updates in the reverse of their insertion
order.  The unstable sort of the source guarantees no more, so the claimed
preservation of insertion order does not hold. -/
theorem claim6_counterexample :
    IsSortedPerm [specDiffPrev, specDupSecond]
      [specDupSecond, specDiffPrev] ∧
    (flushEmit [specDupSecond, specDiffPrev] [] 10).batches =
      [[specDupSecond, specDiffPrev]] ∧
    specDiffPrev ≠ specDupSecond ∧
    batchKey specDiffPrev = batchKey specDupSecond ∧
    specDiffPrev.write_version = specDupSecond.write_version := by
  decide

/-- Witness for the amended C6: flushing the two-update differential
example emits a batch whose write versions weakly ascend. -/
theorem claim6_witness :
    ([specDiffPrev, specDiffNext] : List DbAccountInfo).Pairwise wvLe :=
  claim6_batches_wv_sorted [specDiffPrev, specDiffNext]
    [specDiffPrev, specDiffNext] [] 10 (by decide)
    [specDiffPrev, specDiffNext] (by decide)

/-! ### Flushes that drain nothing -/

/-- When every pending update sits above the rooted slot, the drain window
is empty. -/
theorem drainEndOf_eq_zero {sorted : List DbAccountInfo} {rooted : Nat}
    (hall : ∀ x ∈ sorted, rooted < x.slot) :
    drainEndOf sorted rooted = 0 := by
  cases sorted with
  | nil => rfl
  | cons a t =>
    unfold drainEndOf
    rw [List.findIdx_cons]
    have : decide (rooted < a.slot) = true := by
      simpa using hall a (List.mem_cons_self _ _)
    rw [this]
    rfl

/-- An empty drain window produces no batches. -/
theorem flushEmit_batches_empty (sorted : List DbAccountInfo)
    (g : SlotGraph) (rooted : Nat)
    (hd : drainEndOf sorted rooted = 0) :
    (flushEmit sorted g rooted).batches = [] := by
  show (flushLoop (chainOf g rooted)
      (sorted.take (drainEndOf sorted rooted)) [] (0, []) []).1 ++
    sendNonempty (flushLoop (chainOf g rooted)
      (sorted.take (drainEndOf sorted rooted)) [] (0, []) []).2 = []
  rw [hd]
  rfl

/-- C9: a flush leaves only updates with slots above the rooted slot
pending, so an immediately repeated flush at the same rooted slot — with
any admissible re-sort of the leftover updates — emits nothing. -/
theorem claim9_second_flush_empty (updates : List DbAccountInfo)
    (g : SlotGraph) (rooted : Nat) (sorted1 sorted2 : List DbAccountInfo)
    (h1 : IsSortedPerm updates sorted1)
    (h2 : IsSortedPerm (flushEmit sorted1 g rooted).updates sorted2) :
    (flushEmit sorted2 (flushEmit sorted1 g rooted).graph rooted).batches
      = [] := by
  have hall : ∀ x ∈ sorted2, rooted < x.slot := by
    intro x hx
    have hx' : x ∈ sorted1.drop (drainEndOf sorted1 rooted) :=
      h2.1.mem_iff.mpr hx
    exact drop_slot_gt h1.2 hx'
  exact flushEmit_batches_empty _ _ _ (drainEndOf_eq_zero hall)

/-- Witness for C9: flushing a single update at slot 10 with rooted slot
10, then flushing again, emits nothing the second time. -/
theorem claim9_witness :
    (flushEmit [] (flushEmit [specDiffPrev] [] 10).graph 10).batches = [] :=
  claim9_second_flush_empty [specDiffPrev] [] 10 [specDiffPrev] []
    (by decide) (by decide)

/-- A pending update at slot 7 (above the rooted slot 5 used below). -/
def specLateAcc : DbAccountInfo :=
  { specDiffPrev with slot := 7 }

/-- C10 (amended): if every pending update has a slot above the rooted
slot, the flush emits nothing and keeps the pending updates (in sorted
order) — but it is not a complete no-op on the batcher state: the slot
graph is still pruned of every entry with slot at most the rooted slot. -/
theorem claim10_low_root_no_emit (updates sorted : List DbAccountInfo)
    (g : SlotGraph) (rooted : Nat)
    (hlow : ∀ x ∈ updates, rooted < x.slot)
    (hadm : IsSortedPerm updates sorted) :
    (flushEmit sorted g rooted).batches = [] ∧
    (flushEmit sorted g rooted).updates = sorted ∧
    (flushEmit sorted g rooted).graph =
      g.filter (fun e => decide (rooted < e.1)) := by
  have hall : ∀ x ∈ sorted, rooted < x.slot :=
    fun x hx => hlow x (hadm.1.mem_iff.mpr hx)
  have hd := drainEndOf_eq_zero hall
  refine ⟨flushEmit_batches_empty _ _ _ hd, ?_, rfl⟩
  show sorted.drop (drainEndOf sorted rooted) = sorted
  rw [hd]
  exact List.drop_zero _

/-- C10 counterexample to the claim as stated: the rooted slot 5 is below
the slot 7 of the only pending update, and indeed nothing is emitted — but
the batcher state is not left unchanged: the slot-graph entry `(3, 2)` is
pruned away by the flush. -/
theorem claim10_counterexample :
    ([specLateAcc] : List DbAccountInfo).all
      (fun x => decide (5 < x.slot)) = true ∧
    IsSortedPerm [specLateAcc] [specLateAcc] ∧
    (flushEmit [specLateAcc] [(3, 2)] 5).batches = [] ∧
    (flushEmit [specLateAcc] [(3, 2)] 5).graph = [] ∧
    ([] : SlotGraph) ≠ [(3, 2)] := by
  decide

/-- Witness for the amended C10 at the same concrete state: no emission,
updates kept, graph pruned by the filter. -/
theorem claim10_witness :
    (flushEmit [specLateAcc] [(3, 2)] 5).batches = [] ∧
    (flushEmit [specLateAcc] [(3, 2)] 5).updates = [specLateAcc] ∧
    (flushEmit [specLateAcc] [(3, 2)] 5).graph =
      ([(3, 2)] : SlotGraph).filter (fun e => decide (5 < e.1)) :=
  claim10_low_root_no_emit [specLateAcc] [specLateAcc] [(3, 2)] 5
    (by decide) (by decide)

end BigtableGeyser
